import Mathlib

/-!
Verification development for the concurrent progress-copy program
(src/src/main.rs).  The definitions below are a shallow embedding of the
program's pure logic: the worker distribution and tracking-id arithmetic,
the per-item stream copier (with the file-system and I/O outcomes made
explicit oracles), the display coordinator's event-handling state machine,
the tree enumerator over a model file tree, and the path-shortening
function.  Machine integers (`usize`, `u64`, `u32`) are modelled as `Nat`;
the one place where `usize` subtraction can underflow (and would panic in
Rust) is modelled by an `Option` result.
-/

namespace Rcp

/-- Constant `BUFFER_SIZE` from main.rs (size of the copy buffer). -/
def BUFFER_SIZE : Nat := 64 * 1024

/-- Constant `MAX_CONCURRENT_FILES` from main.rs: worker count and display cap. -/
def MAX_CONCURRENT_FILES : Nat := 10

/-- Constant `MAX_PATH_LENGTH` from main.rs: display width for path labels. -/
def MAX_PATH_LENGTH : Nat := 30

/-- The `ProgressUpdate` enum from main.rs: events sent from copy workers to
the progress manager.  `NewFile {path, size, id}`, `Progress {id, bytes_copied}`,
`Finished {id}`. -/
inductive ProgressUpdate
  | NewFile (path : String) (size : Nat) (id : Nat)
  | Progress (id : Nat) (bytes_copied : Nat)
  | Finished (id : Nat)
  deriving DecidableEq, Repr

/-!  ## Work distribution and tracking ids  -/

/-- The `distribute_files_to_workers` function from main.rs: a vector of
`total_workers` empty queues, then each file at index `i` is pushed onto
queue `i % total_workers`. -/
def distribute_files_to_workers {α : Type _} (files : List α) (total_workers : Nat) :
    List (List α) :=
  go (List.replicate total_workers []) 0 files
where
  /-- The `for (i, ...) in files.iter().enumerate()` loop, with `acc` the
  `result` vector and `i` the running index. -/
  go (acc : List (List α)) (i : Nat) : List α → List (List α)
    | [] => acc
    | f :: fs =>
        go (acc.set (i % total_workers) ((acc.getD (i % total_workers) []) ++ [f])) (i + 1) fs

/-- The `calculate_global_id` function from main.rs:
`local_id * total_workers + worker_id`. -/
def calculate_global_id (local_id worker_id total_workers : Nat) : Nat :=
  local_id * total_workers + worker_id

/-!  ## The stream copier (copy_file_with_progress / copy_symlink)

The file system and the outcome of each `read`/`write_all` syscall are
explicit inputs, so one run of the Rust function corresponds to one value
of the model; the returned event list is the exact sequence of
`progress_sender.send` calls the function performs. -/

/-- Outcome of one iteration of the copy loop: the `read` call either
fails (`rErr`) or returns `n` bytes together with the outcome of the
subsequent `write_all` call (`writeOk`). -/
inductive IoStep
  | rOk (n : Nat) (writeOk : Bool)
  | rErr
  deriving DecidableEq, Repr

/-- One regular-file copy run of `copy_file_with_progress`: the source
path string, whether `File::open` succeeds, whether `metadata()` succeeds,
the file size it reports, whether `create_dir_all(parent)` succeeds,
whether `File::create(destination)` succeeds, and the sequence of
read/write outcomes of the copy loop. -/
structure FileCopyModel where
  path : String
  openOk : Bool
  metadataOk : Bool
  size : Nat
  parentOk : Bool
  createOk : Bool
  steps : List IoStep
  deriving Repr

/-- The copy loop of `copy_file_with_progress`: `total_copied` starts at
`total`; a read of `Ok(0)` or `Err` breaks, a failed `write_all` breaks,
and each successful round sends `Progress {id, bytes_copied := total + n}`. -/
def copy_loop (id : Nat) : List IoStep → Nat → List ProgressUpdate
  | [], _ => []
  | .rErr :: _, _ => []
  | .rOk n writeOk :: rest, total =>
      if n = 0 then []
      else if writeOk then
        ProgressUpdate.Progress id (total + n) :: copy_loop id rest (total + n)
      else []

/-- The `copy_file_with_progress` function from main.rs, returning the list
of events sent on the progress channel and whether the function returned
`Ok` (mid-stream read/write errors still return `Ok`; only the
open/metadata/create-parent/create-destination failures return `Err`,
before any event is sent). -/
def copy_file_with_progress (m : FileCopyModel) (file_id : Nat) :
    List ProgressUpdate × Bool :=
  if m.openOk then
    if m.metadataOk then
      if m.parentOk then
        if m.createOk then
          (ProgressUpdate.NewFile m.path m.size file_id ::
             copy_loop file_id m.steps 0 ++ [ProgressUpdate.Finished file_id], true)
        else ([], false)
      else ([], false)
    else ([], false)
  else ([], false)

/-- What sits at the destination path in the model file system. -/
inductive DestEntry
  | file
  | symlinkTo (target : String)
  deriving DecidableEq, Repr

/-- One symlink copy run of `copy_symlink`: the source path string, the
result of `fs::read_link` (`none` = failure), whether
`create_dir_all(parent)` succeeds, whether the `symlink` call succeeds,
and what currently exists at the destination path. -/
structure SymlinkCopyModel where
  path : String
  target : Option String
  parentOk : Bool
  symlinkOk : Bool
  destBefore : Option DestEntry
  deriving Repr

/-- The `copy_symlink` function from main.rs: read the link target, create
the parent directory, remove any existing destination entry (result
ignored), create the new symlink, then send `NewFile {size := 1}`,
`Progress {bytes_copied := 1}`, `Finished`.  Returns the event list,
whether the function returned `Ok`, and the destination entry afterwards. -/
def copy_symlink (m : SymlinkCopyModel) (file_id : Nat) :
    List ProgressUpdate × Bool × Option DestEntry :=
  match m.target with
  | none => ([], false, m.destBefore)
  | some t =>
      if m.parentOk then
        if m.symlinkOk then
          ([ProgressUpdate.NewFile m.path 1 file_id,
            ProgressUpdate.Progress file_id 1,
            ProgressUpdate.Finished file_id], true, some (DestEntry.symlinkTo t))
        else ([], false, none)
      else ([], false, m.destBefore)

/-- One item handed to `copy_item_with_progress`: the branch is chosen by
`source_path.is_symlink()` in main.rs. -/
inductive ItemModel
  | file (m : FileCopyModel)
  | symlink (m : SymlinkCopyModel)

/-- The `copy_item_with_progress` function from main.rs: dispatches on
whether the source is a symlink. -/
def copy_item_with_progress (it : ItemModel) (file_id : Nat) :
    List ProgressUpdate × Bool :=
  match it with
  | .symlink m => ((copy_symlink m file_id).1, (copy_symlink m file_id).2.1)
  | .file m => copy_file_with_progress m file_id

/-!  ## The display coordinator (progress_manager)

The rendering side of `indicatif` is modelled by the data the coordinator
stores about each bar: its length (`ProgressBar::new(size)`), its current
position (`set_position`), plus the coordinator's own bookkeeping.  The
`bars_to_remove` vector only queues render handles for display removal and
is drained at the top of each loop iteration; it is modelled by its
length. -/

/-- The `ActiveProgress` struct from main.rs (the `pb : ProgressBar` field
is modelled by its length and position). -/
structure ActiveProgress where
  pbLen : Nat
  pbPos : Nat
  finished : Bool
  id : Nat
  path : String
  deriving DecidableEq, Repr

/-- The mutable state of `progress_manager`: `active_bars`,
`completed_files`, the length of `bars_to_remove`, and the position of the
aggregate bar `main_pb`. -/
structure MState where
  active_bars : List ActiveProgress
  completed_files : Nat
  bars_to_remove : Nat
  main_pos : Nat
  deriving Repr

/-- The state of `progress_manager` when the event loop starts. -/
def initialMState : MState :=
  { active_bars := [], completed_files := 0, bars_to_remove := 0, main_pos := 0 }

/-- Rust's `Iterator::position`: index of the first element satisfying `p`. -/
def position {α : Type _} (p : α → Bool) : List α → Option Nat
  | [] => none
  | x :: xs => if p x then some 0 else (position p xs).map (· + 1)

/-- Rust's `Vec::remove(i)`: drop the element at index `i`. -/
def remove_at {α : Type _} : List α → Nat → List α
  | [], _ => []
  | _ :: xs, 0 => xs
  | x :: xs, n + 1 => x :: remove_at xs n

/-- Apply `f` to the element at index `i` (models mutating through
`iter_mut().find(...)`, whose found element sits at the `position` index). -/
def update_at {α : Type _} : List α → Nat → (α → α) → List α
  | [], _, _ => []
  | x :: xs, 0, f => f x :: xs
  | x :: xs, n + 1, f => x :: update_at xs n f

/-- The event-handling `match update` of `progress_manager`:

`NewFile`: if `active_bars.len() >= MAX_CONCURRENT_FILES`, remove the first
finished bar (if any) and queue its render handle for removal; then push a
fresh unfinished bar of length `size` at position 0.

`Progress`: find the first bar with this id; if it is not finished, set its
position to `bytes_copied`.

`Finished`: find the first bar with this id; mark it finished, bump
`completed_files` and the aggregate bar, and queue its handle for removal.
If no bar has the id, nothing changes. -/
def handle_update (s : MState) : ProgressUpdate → MState
  | .NewFile path size id =>
      let pair :=
        if s.active_bars.length ≥ MAX_CONCURRENT_FILES then
          match position (fun ap => ap.finished) s.active_bars with
          | some idx => (remove_at s.active_bars idx, s.bars_to_remove + 1)
          | none => (s.active_bars, s.bars_to_remove)
        else (s.active_bars, s.bars_to_remove)
      { s with
        active_bars := pair.1 ++ [{ pbLen := size, pbPos := 0, finished := false,
                                    id := id, path := path }],
        bars_to_remove := pair.2 }
  | .Progress id bytes_copied =>
      match position (fun ap => ap.id == id) s.active_bars with
      | some idx =>
          { s with active_bars :=
              (update_at s.active_bars idx
                (fun ap => if ap.finished then ap else { ap with pbPos := bytes_copied })) }
      | none => s
  | .Finished id =>
      match position (fun ap => ap.id == id) s.active_bars with
      | some idx =>
          { s with
            active_bars := update_at s.active_bars idx (fun ap => { ap with finished := true }),
            completed_files := s.completed_files + 1,
            main_pos := s.main_pos + 1,
            bars_to_remove := s.bars_to_remove + 1 }
      | none => s

/-- One iteration of the `progress_manager` loop that received an event:
first `bars_to_remove.drain(..)` removes the queued render handles, then
the event is handled. -/
def mstep (s : MState) (u : ProgressUpdate) : MState :=
  handle_update { s with bars_to_remove := 0 } u

/-- The `while completed_files < total_files` receive loop of
`progress_manager`, run over a finite list of received events (the list
ending models channel disconnection; receive timeouts change no state). -/
def run_events (total_files : Nat) (s : MState) : List ProgressUpdate → MState
  | [] => s
  | u :: rest =>
      if s.completed_files < total_files then run_events total_files (mstep s u) rest
      else s

/-- The `progress_manager` event loop from its initial state. -/
def progress_manager_run (total_files : Nat) (events : List ProgressUpdate) : MState :=
  run_events total_files initialMState events

/-!  ## The tree enumerator (collect_files)

Paths are modelled as lists of components; `Path::join` appends one
component, `file_name` is the last component, and a path renders to a
string with `/` between components (as `to_string_lossy` does).  The
source file tree is a model value: `read_dir` yields a directory node's
entries in order.  `create_dir_all` performed by the recursive walk only
touches the destination file system and never changes the returned list;
its failure case (which would abort the run) is not modelled. -/

/-- One node of the source file tree, as classified by main.rs
(`is_file() || is_symlink()` first, then `is_dir()`). -/
inductive FsNode
  | file
  | symlink (target : String)
  | dir (entries : List (String × FsNode))

/-- Render a component path the way `to_string_lossy` renders the paths
main.rs builds by repeated `join`. -/
def pathStr (p : List String) : String :=
  String.intercalate "/" p

mutual

/-- The body of the `for entry in fs::read_dir(source)` loop of
`collect_files_recursive` for one entry named `name`: files and symlinks
are pushed as `(source string, dest path)` pairs, directories recurse with
`dest_path = destination.join(file_name)`. -/
def collect_entry (sourcePath destPath : List String) : FsNode → List (String × List String)
  | .file => [(pathStr sourcePath, destPath)]
  | .symlink _ => [(pathStr sourcePath, destPath)]
  | .dir entries => collect_entries sourcePath destPath entries

/-- The `collect_files_recursive` loop over a directory's entries, in
`read_dir` order. -/
def collect_entries (sourcePath destPath : List String) :
    List (String × FsNode) → List (String × List String)
  | [] => []
  | (name, node) :: rest =>
      collect_entry (sourcePath ++ [name]) (destPath ++ [name]) node ++
        collect_entries sourcePath destPath rest

end

/-- The `collect_files` function from main.rs: a single file or symlink
source yields one item, whose destination is `destination.join(file_name)`
when the destination is an existing directory and `destination` itself
otherwise; a directory source is walked recursively. -/
def collect_files (source : FsNode) (sourcePath destPath : List String)
    (destIsDir : Bool) : List (String × List String) :=
  match source with
  | .file =>
      [(pathStr sourcePath,
        if destIsDir then destPath ++ [sourcePath.getLastD ""] else destPath)]
  | .symlink _ =>
      [(pathStr sourcePath,
        if destIsDir then destPath ++ [sourcePath.getLastD ""] else destPath)]
  | .dir entries => collect_entries sourcePath destPath entries

/-!  ## Path shortening (shorten_path_safe)

`path.len()` is the UTF-8 byte length, `path.chars()` the character list,
and `rfind(MAIN_SEPARATOR)` followed by byte-slicing `&path[last_sep+1..]`
yields exactly the characters after the last `/` (the separator is ASCII).
Rust's `usize` subtraction `max_length - start_chars - 3` panics when it
underflows (debug) or makes the subsequent slice panic (release); the
model returns `none` there. -/

/-- The UTF-8 byte length of a string (Rust's `str::len`). -/
def utf8Len (s : String) : Nat :=
  s.data.foldl (fun n c => n + c.utf8Size) 0

/-- The characters after the last `/`, or `none` when the string has no
`/` (models `rfind(MAIN_SEPARATOR)` plus the byte slice after it). -/
def after_last_sep : List Char → Option (List Char)
  | [] => none
  | c :: cs =>
      match after_last_sep cs with
      | some r => some r
      | none => if c = '/' then some cs else none

/-- The final fallback of `shorten_path_safe`: keep the last
`max_length - 3` characters behind an ellipsis, or return a bare `...`. -/
def shorten_tail (path : String) (max_length : Nat) : Option String :=
  let chars := path.data
  if max_length > 3 then
    some ("..." ++ (chars.drop (chars.length - (max_length - 3))).asString)
  else some "..."

/-- The start/end split branch of `shorten_path_safe`
(`start_chars = max_length / 2`, `end_chars = max_length - start_chars - 3`). -/
def shorten_split (path : String) (max_length : Nat) : Option String :=
  let chars := path.data
  let start_chars := max_length / 2
  if max_length < start_chars + 3 then none
  else
    let end_chars := max_length - start_chars - 3
    if start_chars > 0 ∧ end_chars > 0 then
      some ((chars.take start_chars).asString ++ "..." ++
        (chars.drop (chars.length - end_chars)).asString)
    else shorten_tail path max_length

/-- The `shorten_path_safe` function from main.rs.  `none` models the
panic on `usize` underflow in `max_length - start_chars - 3`. -/
def shorten_path_safe (path : String) (max_length : Nat) : Option String :=
  if utf8Len path ≤ max_length then some path
  else
    let chars := path.data
    if chars.length ≤ max_length then some path
    else
      if chars.length ≥ 3 then
        match after_last_sep chars with
        | some filename =>
            if filename.length + 3 ≤ max_length then
              some ("..." ++ filename.asString)
            else shorten_split path max_length
        | none => shorten_split path max_length
      else shorten_tail path max_length

/-!  ## Supporting lemmas  -/

/-- Every event sent inside the copy loop is a `Progress` event for the
loop's file id. -/
lemma copy_loop_mem (id : Nat) :
    ∀ (steps : List IoStep) (total : Nat) (e : ProgressUpdate),
      e ∈ copy_loop id steps total → ∃ b, e = ProgressUpdate.Progress id b := by
  intro steps
  induction steps with
  | nil => intro total e he; simp [copy_loop] at he
  | cons s rest ih =>
    intro total e he
    cases s with
    | rErr => simp [copy_loop] at he
    | rOk n writeOk =>
      by_cases hn : n = 0
      · simp [copy_loop, hn] at he
      · cases writeOk with
        | false => simp [copy_loop, hn] at he
        | true =>
          simp [copy_loop, hn] at he
          rcases he with h | h
          · exact ⟨total + n, h⟩
          · exact ih (total + n) e h

/-- Whether the setup phase of one item's copy succeeds (deciding that the
events are emitted at all): for a regular file, open/metadata/parent/create;
for a symlink, read_link/parent/symlink. -/
def item_setup_ok : ItemModel → Bool
  | .file m => m.openOk && m.metadataOk && m.parentOk && m.createOk
  | .symlink m => m.target.isSome && m.parentOk && m.symlinkOk

/-!  ## Claims  -/

/-- C1: with the worker count `W = MAX_CONCURRENT_FILES`, any two distinct
positions (worker id, local queue index) of the round-robin distribution
produced by `distribute_files_to_workers` are assigned distinct tracking
ids by `calculate_global_id`, so no two items of the run share a tracking
id. -/
theorem tracking_ids_unique {α : Type _} (files : List α) (w₁ w₂ l₁ l₂ : Nat)
    (hw₁ : w₁ < MAX_CONCURRENT_FILES) (hw₂ : w₂ < MAX_CONCURRENT_FILES)
    (_hl₁ : l₁ < ((distribute_files_to_workers files MAX_CONCURRENT_FILES).getD w₁ []).length)
    (_hl₂ : l₂ < ((distribute_files_to_workers files MAX_CONCURRENT_FILES).getD w₂ []).length)
    (hne : (w₁, l₁) ≠ (w₂, l₂)) :
    calculate_global_id l₁ w₁ MAX_CONCURRENT_FILES ≠
      calculate_global_id l₂ w₂ MAX_CONCURRENT_FILES := by
  simp only [calculate_global_id, MAX_CONCURRENT_FILES] at hw₁ hw₂ ⊢
  intro h
  apply hne
  have : w₁ = w₂ ∧ l₁ = l₂ := by omega
  rw [this.1, this.2]

/-- Witness for C1 at a concrete file list: the two items "a" and "b" land
on workers 0 and 1 at local index 0 and get distinct tracking ids. -/
theorem tracking_ids_unique_witness :
    calculate_global_id 0 0 MAX_CONCURRENT_FILES ≠
      calculate_global_id 0 1 MAX_CONCURRENT_FILES :=
  tracking_ids_unique ["a", "b"] 0 1 0 0 (by decide) (by decide)
    (by decide) (by decide) (by decide)

/-- C3: for every item whose copy setup succeeds, the events emitted by
`copy_item_with_progress` for its id are exactly one `NewFile`, then a
run of `Progress` events, then exactly one final `Finished`: nothing
precedes the `NewFile` and nothing follows the `Finished`. -/
theorem event_order_per_item (it : ItemModel) (file_id : Nat)
    (h : item_setup_ok it = true) :
    ∃ path sz mid,
      (copy_item_with_progress it file_id).1 =
        ProgressUpdate.NewFile path sz file_id ::
          (mid ++ [ProgressUpdate.Finished file_id]) ∧
      ∀ e ∈ mid, ∃ b, e = ProgressUpdate.Progress file_id b := by
  cases it with
  | file m =>
    simp only [item_setup_ok, Bool.and_eq_true] at h
    obtain ⟨⟨⟨h1, h2⟩, h3⟩, h4⟩ := h
    refine ⟨m.path, m.size, copy_loop file_id m.steps 0, ?_, ?_⟩
    · simp [copy_item_with_progress, copy_file_with_progress, h1, h2, h3, h4]
    · exact fun e he => copy_loop_mem file_id m.steps 0 e he
  | symlink m =>
    simp only [item_setup_ok, Bool.and_eq_true] at h
    obtain ⟨⟨h1, h2⟩, h3⟩ := h
    obtain ⟨t, ht⟩ := Option.isSome_iff_exists.mp h1
    refine ⟨m.path, 1, [ProgressUpdate.Progress file_id 1], ?_, ?_⟩
    · simp [copy_item_with_progress, copy_symlink, ht, h2, h3]
    · simp

/-- Witness for C3 at a concrete regular-file copy (two reads then end of
stream). -/
theorem event_order_per_item_witness :
    ∃ path sz mid,
      (copy_item_with_progress
          (ItemModel.file { path := "src.txt", openOk := true, metadataOk := true,
                            size := 7, parentOk := true, createOk := true,
                            steps := [IoStep.rOk 4 true, IoStep.rOk 3 true,
                                      IoStep.rOk 0 true] }) 3).1 =
        ProgressUpdate.NewFile path sz 3 ::
          (mid ++ [ProgressUpdate.Finished 3]) ∧
      ∀ e ∈ mid, ∃ b, e = ProgressUpdate.Progress 3 b :=
  event_order_per_item _ 3 (by decide)

/-- C7: for a symlink whose target is readable and whose parent creation
and symlink creation succeed, `copy_symlink` replaces whatever was at the
destination with a symlink to the same target and emits exactly
`NewFile{size=1}`, `Progress{bytes=1}`, `Finished`, in that order. -/
theorem symlink_copy_behavior (m : SymlinkCopyModel) (file_id : Nat) (t : String)
    (ht : m.target = some t) (hp : m.parentOk = true) (hs : m.symlinkOk = true) :
    copy_symlink m file_id =
      ([ProgressUpdate.NewFile m.path 1 file_id,
        ProgressUpdate.Progress file_id 1,
        ProgressUpdate.Finished file_id], true, some (DestEntry.symlinkTo t)) := by
  simp [copy_symlink, ht, hp, hs]

/-- Witness for C7 at a concrete symlink copy over an existing regular
file at the destination. -/
theorem symlink_copy_behavior_witness :
    copy_symlink { path := "lnk", target := some "tgt", parentOk := true,
                   symlinkOk := true, destBefore := some DestEntry.file } 2 =
      ([ProgressUpdate.NewFile "lnk" 1 2,
        ProgressUpdate.Progress 2 1,
        ProgressUpdate.Finished 2], true, some (DestEntry.symlinkTo "tgt")) :=
  symlink_copy_behavior _ 2 "tgt" rfl rfl rfl

/-- The `bytes_copied` values carried by the `Progress` events of an event
list, in emission order. -/
def progress_values (evs : List ProgressUpdate) : List Nat :=
  evs.filterMap fun e =>
    match e with
    | ProgressUpdate.Progress _ b => some b
    | _ => none

/-- The spec's reading assumption along the executed part of the copy loop:
with `t` bytes already copied, each performed read returns at most the
remaining `size - t` bytes (after a break nothing is constrained). -/
def reads_bounded (size : Nat) : Nat → List IoStep → Bool
  | _, [] => true
  | _, IoStep.rErr :: _ => true
  | t, IoStep.rOk n writeOk :: rest =>
      decide (t + n ≤ size) &&
        (if n = 0 then true
         else if writeOk then reads_bounded size (t + n) rest
         else true)

/-- Bounds for the values emitted by the copy loop: starting from `total`
already-copied bytes, under `reads_bounded` every emitted value lies in
`[total, size]` and the emitted values are non-decreasing. -/
lemma copy_loop_values_bounded (id size : Nat) :
    ∀ (steps : List IoStep) (total : Nat), reads_bounded size total steps = true →
      (∀ v ∈ progress_values (copy_loop id steps total), total ≤ v ∧ v ≤ size) ∧
      (progress_values (copy_loop id steps total)).Pairwise (· ≤ ·) := by
  intro steps
  induction steps with
  | nil => intro total _; simp [copy_loop, progress_values]
  | cons s rest ih =>
    intro total h
    cases s with
    | rErr => simp [copy_loop, progress_values]
    | rOk n writeOk =>
      by_cases hn : n = 0
      · simp [copy_loop, hn, progress_values]
      · cases writeOk with
        | false => simp [copy_loop, hn, progress_values]
        | true =>
          simp only [reads_bounded, if_neg hn, if_pos rfl, Bool.and_eq_true,
            decide_eq_true_eq] at h
          obtain ⟨hbound, hrest⟩ := h
          have ihr := ih (total + n) hrest
          have hvals : progress_values (copy_loop id (IoStep.rOk n true :: rest) total) =
              (total + n) :: progress_values (copy_loop id rest (total + n)) := by
            simp [copy_loop, hn, progress_values]
          rw [hvals]
          constructor
          · intro v hv
            rcases List.mem_cons.mp hv with h | h
            · omega
            · have := ihr.1 v h
              omega
          · rw [List.pairwise_cons]
            exact ⟨fun b hb => (ihr.1 b hb).1, ihr.2⟩

/-- C4: for a regular-file copy, under the assumption that each read
returns at most the remaining bytes of the file, the `bytes_copied` values
of the emitted `Progress` events are non-decreasing and each is bounded by
the size announced in the `NewFile` event (the size read at open time). -/
theorem advanced_monotone_bounded (m : FileCopyModel) (file_id : Nat)
    (h : reads_bounded m.size 0 m.steps = true) :
    (progress_values (copy_file_with_progress m file_id).1).Pairwise (· ≤ ·) ∧
    ∀ v ∈ progress_values (copy_file_with_progress m file_id).1, v ≤ m.size := by
  have key := copy_loop_values_bounded file_id m.size m.steps 0 h
  by_cases hall : m.openOk = true ∧ m.metadataOk = true ∧ m.parentOk = true ∧
      m.createOk = true
  · obtain ⟨h1, h2, h3, h4⟩ := hall
    have hev : progress_values (copy_file_with_progress m file_id).1 =
        progress_values (copy_loop file_id m.steps 0) := by
      simp [copy_file_with_progress, h1, h2, h3, h4, progress_values]
    rw [hev]
    exact ⟨key.2, fun v hv => (key.1 v hv).2⟩
  · have hev : (copy_file_with_progress m file_id).1 = [] := by
      simp only [copy_file_with_progress]
      split_ifs with h1 h2 h3 h4
      · exact absurd ⟨h1, h2, h3, h4⟩ hall
      all_goals rfl
    rw [hev]
    simp [progress_values]

/-- Witness for C4 at a concrete copy of a 10-byte file read in two
chunks. -/
theorem advanced_monotone_bounded_witness :
    (progress_values (copy_file_with_progress
        { path := "f", openOk := true, metadataOk := true, size := 10,
          parentOk := true, createOk := true,
          steps := [IoStep.rOk 6 true, IoStep.rOk 4 true, IoStep.rOk 0 true] } 1).1).Pairwise
        (· ≤ ·) ∧
    ∀ v ∈ progress_values (copy_file_with_progress
        { path := "f", openOk := true, metadataOk := true, size := 10,
          parentOk := true, createOk := true,
          steps := [IoStep.rOk 6 true, IoStep.rOk 4 true, IoStep.rOk 0 true] } 1).1,
      v ≤ 10 :=
  advanced_monotone_bounded _ 1 (by decide)

/-- A loop iteration that reads some bytes and writes them in full (the
loop continues past it). -/
def good_step : IoStep → Bool
  | .rOk n writeOk => decide (n ≠ 0) && writeOk
  | .rErr => false

/-- The copy loop ignores everything after a step it breaks on (a read
error, an end-of-stream read, or a failed write): its events over
`pre ++ e :: post` equal its events over `pre` alone, when every step of
`pre` keeps the loop running. -/
lemma copy_loop_break_early (id : Nat) (e : IoStep) (he : good_step e = false)
    (post : List IoStep) :
    ∀ (pre : List IoStep) (total : Nat), (∀ s ∈ pre, good_step s = true) →
      copy_loop id (pre ++ e :: post) total = copy_loop id pre total := by
  intro pre
  induction pre with
  | nil =>
    intro total _
    cases e with
    | rErr => simp [copy_loop]
    | rOk n writeOk =>
      simp only [good_step, Bool.and_eq_true, decide_eq_true_eq] at he
      by_cases hn : n = 0
      · simp [copy_loop, hn]
      · cases writeOk with
        | true => exfalso; simp [hn] at he
        | false => simp [copy_loop, hn]
  | cons s rest ih =>
    intro total hpre
    have hs := hpre s (List.mem_cons_self s rest)
    cases s with
    | rErr => simp [good_step] at hs
    | rOk n writeOk =>
      simp only [good_step, Bool.and_eq_true, decide_eq_true_eq] at hs
      obtain ⟨hn, hw⟩ := hs
      subst hw
      have ihx := ih (total + n) (fun x hx => hpre x (List.mem_cons_of_mem _ hx))
      simp [copy_loop, hn, ihx]

/-- C5: a mid-stream read error or write failure after a successful setup
does not abort the item: the loop breaks early (events equal those of the
error-free prefix alone), the function still returns `Ok`, and the final
event is still `Finished`. -/
theorem midstream_error_still_done (m : FileCopyModel) (file_id : Nat)
    (e : IoStep) (pre post : List IoStep)
    (h1 : m.openOk = true) (h2 : m.metadataOk = true)
    (h3 : m.parentOk = true) (h4 : m.createOk = true)
    (herr : e = IoStep.rErr ∨ ∃ n, n ≠ 0 ∧ e = IoStep.rOk n false)
    (hsteps : m.steps = pre ++ e :: post)
    (hpre : ∀ s ∈ pre, good_step s = true) :
    (copy_file_with_progress m file_id).2 = true ∧
    (copy_file_with_progress m file_id).1 =
      (copy_file_with_progress { m with steps := pre } file_id).1 ∧
    ((copy_file_with_progress m file_id).1).getLast? =
      some (ProgressUpdate.Finished file_id) := by
  have he : good_step e = false := by
    rcases herr with rfl | ⟨n, hn, rfl⟩
    · rfl
    · simp [good_step]
  have hloop := copy_loop_break_early file_id e he post pre 0 hpre
  refine ⟨?_, ?_, ?_⟩
  · simp [copy_file_with_progress, h1, h2, h3, h4]
  · simp [copy_file_with_progress, h1, h2, h3, h4, hsteps, hloop]
  · simp only [copy_file_with_progress, h1, h2, h3, h4, if_pos rfl]
    rw [show ProgressUpdate.NewFile m.path m.size file_id ::
          copy_loop file_id m.steps 0 ++ [ProgressUpdate.Finished file_id] =
        (ProgressUpdate.NewFile m.path m.size file_id ::
          copy_loop file_id m.steps 0) ++ [ProgressUpdate.Finished file_id] from rfl]
    exact List.getLast?_concat _

/-- Witness for C5 at a concrete copy whose second write fails mid-stream
(a write failure, the `rOk 3 false` step). -/
theorem midstream_error_still_done_witness :
    (copy_file_with_progress
        { path := "f", openOk := true, metadataOk := true, size := 9,
          parentOk := true, createOk := true,
          steps := [IoStep.rOk 4 true, IoStep.rOk 3 false, IoStep.rOk 5 true] } 0).2 =
      true ∧
    (copy_file_with_progress
        { path := "f", openOk := true, metadataOk := true, size := 9,
          parentOk := true, createOk := true,
          steps := [IoStep.rOk 4 true, IoStep.rOk 3 false, IoStep.rOk 5 true] } 0).1 =
      (copy_file_with_progress
        { path := "f", openOk := true, metadataOk := true, size := 9,
          parentOk := true, createOk := true,
          steps := [IoStep.rOk 4 true] } 0).1 ∧
    ((copy_file_with_progress
        { path := "f", openOk := true, metadataOk := true, size := 9,
          parentOk := true, createOk := true,
          steps := [IoStep.rOk 4 true, IoStep.rOk 3 false,
                    IoStep.rOk 5 true] } 0).1).getLast? =
      some (ProgressUpdate.Finished 0) :=
  midstream_error_still_done _ 0 (IoStep.rOk 3 false) [IoStep.rOk 4 true]
    [IoStep.rOk 5 true] rfl rfl rfl rfl (Or.inr ⟨3, by decide, rfl⟩) rfl (by decide)

/-!  ## Coordinator lemmas  -/

/-- When no element satisfies the predicate, `position` finds nothing. -/
lemma position_eq_none {α : Type _} (p : α → Bool) :
    ∀ (l : List α), (∀ x ∈ l, p x = false) → position p l = none := by
  intro l
  induction l with
  | nil => intro _; rfl
  | cons x xs ih =>
    intro h
    have hx := h x (List.mem_cons_self x xs)
    simp [position, hx, ih (fun y hy => h y (List.mem_cons_of_mem x hy))]

/-- When some element satisfies the predicate, `position` finds a valid
index. -/
lemma position_eq_some {α : Type _} (p : α → Bool) :
    ∀ (l : List α), (∃ x ∈ l, p x = true) →
      ∃ i, position p l = some i ∧ i < l.length := by
  intro l
  induction l with
  | nil => intro h; simp at h
  | cons x xs ih =>
    intro h
    by_cases hx : p x = true
    · exact ⟨0, by simp [position, hx], by simp⟩
    · obtain ⟨y, hy, hpy⟩ := h
      rcases List.mem_cons.mp hy with rfl | hy
      · exact absurd hpy hx
      · obtain ⟨i, hi, hlen⟩ := ih ⟨y, hy, hpy⟩
        refine ⟨i + 1, ?_, by simpa using hlen⟩
        simp [position, hx, hi]

/-- The element `position` points at satisfies the predicate. -/
lemma position_spec {α : Type _} (p : α → Bool) :
    ∀ (l : List α) (i : Nat), position p l = some i →
      i < l.length ∧ ∀ h : i < l.length, p (l.get ⟨i, h⟩) = true := by
  intro l
  induction l with
  | nil => intro i h; simp [position] at h
  | cons x xs ih =>
    intro i h
    by_cases hx : p x = true
    · simp [position, hx] at h
      subst h
      exact ⟨by simp, fun _ => hx⟩
    · simp [position, hx] at h
      obtain ⟨j, hj, rfl⟩ := h
      obtain ⟨hlt, hp⟩ := ih j hj
      exact ⟨by simpa using hlt, fun _ => hp hlt⟩

/-- Removing a valid index shortens the list by one. -/
lemma length_remove_at {α : Type _} :
    ∀ (l : List α) (i : Nat), i < l.length →
      (remove_at l i).length = l.length - 1 := by
  intro l
  induction l with
  | nil => intro i h; simp at h
  | cons x xs ih =>
    intro i h
    cases i with
    | zero => simp [remove_at]
    | succ j =>
      have := ih j (by simpa using h)
      simp only [remove_at, List.length_cons, this]
      have : 0 < xs.length := by
        have hj : j < xs.length := by simpa using h
        omega
      omega

/-- Removing an element at the first index satisfying `p` does not change
the sublist of elements not satisfying `p`. -/
lemma filter_remove_at_position {α : Type _} (p : α → Bool) :
    ∀ (l : List α) (i : Nat), position p l = some i →
      (remove_at l i).filter (fun x => !p x) = l.filter (fun x => !p x) := by
  intro l
  induction l with
  | nil => intro i h; simp [position] at h
  | cons x xs ih =>
    intro i h
    by_cases hx : p x = true
    · simp [position, hx] at h
      subst h
      simp [remove_at, List.filter_cons, hx]
    · simp [position, hx] at h
      obtain ⟨j, hj, rfl⟩ := h
      have hxf : p x = false := by simpa using hx
      simp [remove_at, List.filter_cons, hxf, ih j hj]

/-- Updating in place preserves the length. -/
lemma length_update_at {α : Type _} :
    ∀ (l : List α) (i : Nat) (f : α → α),
      (update_at l i f).length = l.length := by
  intro l
  induction l with
  | nil => intro i f; rfl
  | cons x xs ih =>
    intro i f
    cases i with
    | zero => simp [update_at]
    | succ j => simp [update_at, ih j f]

/-- The drain step plus event handling never changes `active_bars` length
except on `NewFile`, and on `NewFile` with fewer active bars than the cap
it appends exactly one bar. -/
lemma mstep_active_bars_progress (s : MState) (id b : Nat) :
    (mstep s (ProgressUpdate.Progress id b)).active_bars.length =
      s.active_bars.length := by
  obtain ⟨ab, cf, btr, mp⟩ := s
  simp only [mstep, handle_update]
  cases hpos : position (fun ap => ap.id == id) ab <;>
    simp [length_update_at]

/-- The `Finished` handler preserves the number of active bars. -/
lemma mstep_active_bars_finished (s : MState) (id : Nat) :
    (mstep s (ProgressUpdate.Finished id)).active_bars.length =
      s.active_bars.length := by
  obtain ⟨ab, cf, btr, mp⟩ := s
  simp only [mstep, handle_update]
  cases hpos : position (fun ap => ap.id == id) ab <;>
    simp [length_update_at]

/-- C6: a `NewFile` event never evicts an unfinished indicator (the bars
that are not finished afterwards are exactly those before plus the new
one), and no eviction at all happens while the number of active bars is
below `MAX_CONCURRENT_FILES` (the handler then just appends the new bar). -/
theorem eviction_only_finished (s : MState) (path : String) (size id : Nat) :
    ((mstep s (ProgressUpdate.NewFile path size id)).active_bars.filter
        (fun ap => !ap.finished)) =
      (s.active_bars.filter (fun ap => !ap.finished)) ++
        [{ pbLen := size, pbPos := 0, finished := false, id := id, path := path }] ∧
    (s.active_bars.length < MAX_CONCURRENT_FILES →
      (mstep s (ProgressUpdate.NewFile path size id)).active_bars =
        s.active_bars ++
          [{ pbLen := size, pbPos := 0, finished := false, id := id, path := path }]) := by
  obtain ⟨ab, cf, btr, mp⟩ := s
  simp only [mstep, handle_update]
  constructor
  · by_cases hlen : ab.length ≥ MAX_CONCURRENT_FILES
    · cases hpos : position (fun ap => ap.finished) ab with
      | some idx =>
          simp only [if_pos hlen, hpos]
          rw [List.filter_append, filter_remove_at_position _ ab idx hpos]
          simp
      | none =>
          simp only [if_pos hlen, hpos]
          simp [List.filter_append]
    · simp only [if_neg hlen]
      simp [List.filter_append]
  · intro hlt
    have : ¬ ab.length ≥ MAX_CONCURRENT_FILES := by omega
    simp [this]

/-- Witness for C6: from an empty display, a `NewFile` just appends the
new indicator. -/
theorem eviction_only_finished_witness :
    (mstep initialMState (ProgressUpdate.NewFile "a" 5 0)).active_bars =
      initialMState.active_bars ++
        [{ pbLen := 5, pbPos := 0, finished := false, id := 0, path := "a" }] :=
  (eviction_only_finished initialMState "a" 5 0).2 (by decide)

/-- Counterexample to C2 as stated: eleven `NewItem` events with no `Done`
in between drive the coordinator to eleven simultaneously live indicators,
strictly more than the display cap `MAX_CONCURRENT_FILES = 10` (the cap
is soft: when nothing is finished, nothing is evicted, yet the new
indicator is still created). -/
theorem display_cap_exceeded :
    ¬ ((progress_manager_run 12
          ((List.range 11).map (fun i => ProgressUpdate.NewFile "p" 1 i))).active_bars.length ≤
        MAX_CONCURRENT_FILES) := by
  decide

/-- A trace is cap-friendly when every `NewFile` the running coordinator
processes either arrives below the cap or finds at least one finished
indicator to evict. -/
def cap_friendly (total : Nat) : MState → List ProgressUpdate → Prop
  | _, [] => True
  | s, u :: rest =>
      if s.completed_files < total then
        (match u with
         | ProgressUpdate.NewFile _ _ _ =>
             s.active_bars.length < MAX_CONCURRENT_FILES ∨
               ∃ ap ∈ s.active_bars, ap.finished = true
         | _ => True) ∧ cap_friendly total (mstep s u) rest
      else True

/-- The cap invariant is preserved by every step of a cap-friendly run. -/
lemma run_events_cap (total : Nat) :
    ∀ (events : List ProgressUpdate) (s : MState),
      s.active_bars.length ≤ MAX_CONCURRENT_FILES →
      cap_friendly total s events →
      (run_events total s events).active_bars.length ≤ MAX_CONCURRENT_FILES := by
  intro events
  induction events with
  | nil => intro s hs _; simpa [run_events] using hs
  | cons u rest ih =>
    intro s hs hcf
    simp only [run_events]
    by_cases hlt : s.completed_files < total
    · simp only [cap_friendly, if_pos hlt] at hcf
      obtain ⟨hcond, hrest⟩ := hcf
      rw [if_pos hlt]
      refine ih (mstep s u) ?_ hrest
      cases u with
      | Progress id b => rw [mstep_active_bars_progress]; exact hs
      | Finished id => rw [mstep_active_bars_finished]; exact hs
      | NewFile path size id =>
          obtain ⟨ab, cf, btr, mp⟩ := s
          simp only [mstep, handle_update]
          by_cases hlen : ab.length ≥ MAX_CONCURRENT_FILES
          · rcases hcond with hsmall | hfin
            · simp at hsmall hlen; omega
            · obtain ⟨i, hi, hilen⟩ := position_eq_some _ ab
                (by simpa using hfin)
              simp only [if_pos hlen, hi]
              simp only [List.length_append, List.length_cons, List.length_nil]
              rw [length_remove_at ab i hilen]
              simp only [MState.active_bars] at hs ⊢
              omega
          · simp only [if_neg hlen]
            simp only [MState.active_bars] at hs ⊢
            simp only [List.length_append, List.length_cons, List.length_nil]
            omega
    · rw [if_neg hlt]
      exact hs

/-- C2 (amended): along any run in which every `NewItem` that arrives with
the display already at the cap finds a finished indicator to evict, the
number of simultaneously live indicators never exceeds
`MAX_CONCURRENT_FILES`; without that proviso the cap is a soft budget and
can be exceeded. -/
theorem display_cap_soft_invariant (total : Nat) (events : List ProgressUpdate)
    (h : cap_friendly total initialMState events) :
    (progress_manager_run total events).active_bars.length ≤ MAX_CONCURRENT_FILES :=
  run_events_cap total events initialMState (by simp [initialMState]) h

/-- Witness for the amended C2 on a concrete two-event trace. -/
theorem display_cap_soft_invariant_witness :
    (progress_manager_run 1
        [ProgressUpdate.NewFile "a" 3 0, ProgressUpdate.Finished 0]).active_bars.length ≤
      MAX_CONCURRENT_FILES := by
  refine display_cap_soft_invariant 1
    [ProgressUpdate.NewFile "a" 3 0, ProgressUpdate.Finished 0] ?_
  simp [cap_friendly, initialMState, mstep, handle_update, MAX_CONCURRENT_FILES]

/-- C10: a `Finished` event whose id matches no active indicator changes
nothing in the coordinator: no indicator is touched, `completed_files` is
not incremented and the aggregate bar does not advance (only the
unconditional per-iteration drain of the render-removal queue happens). -/
theorem unknown_finished_ignored (s : MState) (id : Nat)
    (h : ∀ ap ∈ s.active_bars, ap.id ≠ id) :
    mstep s (ProgressUpdate.Finished id) = { s with bars_to_remove := 0 } := by
  obtain ⟨ab, cf, btr, mp⟩ := s
  have hpos : position (fun ap => ap.id == id) ab = none := by
    refine position_eq_none _ ab (fun x hx => ?_)
    simpa using h x hx
  simp [mstep, handle_update, hpos]

/-- Witness for C10: a `Finished 7` against a display whose only bar has
id 5 leaves everything unchanged (bar untouched, counts not advanced). -/
theorem unknown_finished_ignored_witness :
    mstep { active_bars := [{ pbLen := 4, pbPos := 2, finished := false,
                              id := 5, path := "x" }],
            completed_files := 0, bars_to_remove := 3, main_pos := 0 }
        (ProgressUpdate.Finished 7) =
      { active_bars := [{ pbLen := 4, pbPos := 2, finished := false,
                          id := 5, path := "x" }],
        completed_files := 0, bars_to_remove := 0, main_pos := 0 } :=
  unknown_finished_ignored _ 7 (by decide)

/-- C8: a source that is a single regular file or symlink enumerates to
exactly one item, whose destination is the destination path itself when
that path is not an existing directory, and the destination path joined
with the source's basename when it is. -/
theorem single_item_enumeration (node : FsNode) (ps : List String) (name : String)
    (destPath : List String) (destIsDir : Bool)
    (h : node = FsNode.file ∨ ∃ t, node = FsNode.symlink t) :
    collect_files node (ps ++ [name]) destPath destIsDir =
      [(pathStr (ps ++ [name]),
        if destIsDir then destPath ++ [name] else destPath)] := by
  have hl : (ps ++ [name]).getLastD "" = name := by
    simp [List.getLastD_eq_getLast?, List.getLast?_concat]
  rcases h with rfl | ⟨t, rfl⟩ <;> simp [collect_files, hl]

/-- Witness for C8: one file copied into an existing directory lands at
`dir/basename(source)`. -/
theorem single_item_enumeration_witness :
    collect_files FsNode.file (["home", "user"] ++ ["f.txt"]) ["dst"] true =
      [("home/user/f.txt", ["dst", "f.txt"])] := by
  rw [single_item_enumeration FsNode.file ["home", "user"] "f.txt" ["dst"] true
    (Or.inl rfl)]
  rfl

/-!  ## Path shortening claims  -/

/-- A string has at least as many UTF-8 bytes as characters. -/
lemma foldl_utf8_ge (l : List Char) :
    ∀ a : Nat, a + l.length ≤ l.foldl (fun n c => n + c.utf8Size) a := by
  induction l with
  | nil => intro a; simp
  | cons c cs ih =>
    intro a
    have h1 : 0 < c.utf8Size := Char.utf8Size_pos c
    have h2 := ih (a + c.utf8Size)
    simp only [List.foldl_cons, List.length_cons]
    omega

/-- The character count never exceeds the UTF-8 byte count. -/
lemma length_le_utf8Len (s : String) : s.length ≤ utf8Len s := by
  have := foldl_utf8_ge s.data 0
  simpa [utf8Len] using this

/-- Turning a character list into a string preserves its length. -/
lemma length_asString (l : List Char) : (l.asString).length = l.length := rfl

/-- The fallback tail branch of the shortener always returns a string, of
at most `max_length` characters once `max_length` exceeds the ellipsis. -/
lemma shorten_tail_bounded (path : String) (max_length : Nat)
    (h4 : 3 < max_length) :
    ∃ s, shorten_tail path max_length = some s ∧ s.length ≤ max_length := by
  unfold shorten_tail
  simp only [if_pos h4]
  refine ⟨_, rfl, ?_⟩
  rw [String.length_append, length_asString, List.length_drop]
  have hd : ("..." : String).length = 3 := rfl
  omega

/-- The split branch of the shortener always returns a string of at most
`max_length` characters when `max_length ≥ 5` and the path is longer than
`max_length` characters. -/
lemma shorten_split_bounded (path : String) (max_length : Nat)
    (h : 5 ≤ max_length) (hlen : max_length < path.data.length) :
    ∃ s, shorten_split path max_length = some s ∧ s.length ≤ max_length := by
  unfold shorten_split
  have hnov : ¬ (max_length < max_length / 2 + 3) := by omega
  simp only [if_neg hnov]
  by_cases hse : max_length / 2 > 0 ∧ max_length - max_length / 2 - 3 > 0
  · simp only [if_pos hse]
    refine ⟨_, rfl, ?_⟩
    rw [String.length_append, String.length_append, length_asString, length_asString,
      List.length_take, List.length_drop]
    have hd : ("..." : String).length = 3 := rfl
    omega
  · simp only [if_neg hse]
    exact shorten_tail_bounded path max_length (by omega)

/-- Counterexample to C9 as stated: at display width 1 the two-character
path "ab" is "shortened" to the three-character ellipsis, which exceeds
the requested width. -/
theorem shorten_path_width_violation :
    shorten_path_safe "ab" 1 = some "..." ∧ ¬ (("..." : String).length ≤ 1) :=
  ⟨rfl, by decide⟩

/-- C9 (amended): for every path and every maximum display width of at
least 5, `shorten_path_safe` returns a string (no `usize` underflow panic)
of at most that width in characters; for smaller widths it can return the
3-character ellipsis, exceeding the width, or hit the underflow. -/
theorem shorten_path_total_bounded (path : String) (max_length : Nat)
    (h : 5 ≤ max_length) :
    ∃ s, shorten_path_safe path max_length = some s ∧ s.length ≤ max_length := by
  unfold shorten_path_safe
  by_cases h1 : utf8Len path ≤ max_length
  · refine ⟨path, by simp [h1], le_trans (length_le_utf8Len path) h1⟩
  · simp only [if_neg h1]
    by_cases h2 : path.data.length ≤ max_length
    · exact ⟨path, by simp only [if_pos h2], h2⟩
    · simp only [if_neg h2]
      have hlen3 : path.data.length ≥ 3 := by omega
      simp only [if_pos hlen3]
      cases hsep : after_last_sep path.data with
      | some filename =>
          by_cases hf : filename.length + 3 ≤ max_length
          · refine ⟨"..." ++ filename.asString, by simp [hf], ?_⟩
            rw [String.length_append, length_asString]
            have hd : ("..." : String).length = 3 := rfl
            omega
          · simp only [if_neg hf]
            exact shorten_split_bounded path max_length h (by omega)
      | none => exact shorten_split_bounded path max_length h (by omega)

/-- Witness for the amended C9 at a concrete ten-character path and
width 5. -/
theorem shorten_path_total_bounded_witness :
    ∃ s, shorten_path_safe "abcdefghij" 5 = some s ∧ s.length ≤ 5 :=
  shorten_path_total_bounded "abcdefghij" 5 (by decide)

end Rcp
